import Mathlib

/-!
# Verification of the static perfect-hash builder

Shallow embedding of the core of the repository:

* `src/py/crc_polynomials.py` — the Koopman polynomial catalog and
  `get_poly_index`;
* `src/sim/static_hash.py` — `StaticHasher.__init__`, `calculate_crc`,
  `find_conflicts`, `assign_hash_functions` and the computational core of
  `process_file` (table packing and normalization).

Conventions of the embedding:

* A byte string (`bytes`) is a `List Nat` whose elements are intended to be
  `< 256`; a bytearray is likewise a `List Nat`.
* Python `raise ValueError(...)` / `KeyError` / `TypeError` are modelled with
  the `Except HashErr` monad; each constructor of `HashErr` names one raise
  site (or built-in exception) and the Python message is recorded next to it.
* Python `dict` objects are modelled as association lists in insertion order
  (CPython dicts iterate in insertion order and an update of an existing key
  keeps its position), with `dictInsert` implementing the update.
* The CRC calculators produced by the external `pycrc` library
  (`pycrc.algorithms.Crc(...).table_driven`) are not part of this repository;
  functions that consume them are parameterized by an abstract engine
  `Bytes → Nat`, and a concrete engine is modelled from the spec (§4.B) where a
  concrete run is needed.
* `int(math.log2 n)` is embedded as `log2floor n` (= `⌊log₂ n⌋` = `Nat.log2 n`,
  proved below; a fuel-based definition is used so that the kernel can
  evaluate it).  The double rounding of `math.log2` can only disagree with
  `⌊log₂ n⌋` when `n ≥ 2 ^ 48` is slightly below a power of two, and for
  every such `n` both readings make the constructor fail with the same error,
  so the embedding is outcome-faithful.  `(n).bit_length()` is embedded the
  same way as `bit_length n`.
-/

/-- A byte string (Python `bytes`): list of byte values. -/
abbrev Bytes := List Nat

/-- One assignment entry of the `result` dict of `assign_hash_functions`:
`string ↦ (crc_function_name, unique_id)`. -/
abbrev AEntry := Bytes × String × Nat

/-- Exceptions raised by the modelled code.  Each constructor corresponds to
one Python raise site (or built-in exception), with the message recorded:

* `mathDomain` — `math.log2(0)` raises `ValueError("math domain error")`;
* `maxIdsTooLarge` — `ValueError("Maximum supported number of IDs is is 2**30")`;
* `noCalculators` — `ValueError("No CRC-{w} calculators could be created")`;
* `keyError` — Python `KeyError` on a failed `dict` lookup;
* `typeError` — Python `TypeError` (e.g. `None << int`);
* `symbolTooLong i` — `ValueError("Line {i+1} exceeds 32 bytes: ...")`;
* `tooManySymbols limit` — `ValueError("... contains too many strings (>{limit})")`;
* `unresolvableConflicts k` — `ValueError("Could not resolve all conflicts,
  {k} strings remain unassigned")`;
* `unknownPolynomial` — the error kind named by the spec (§7) for a catalog
  lookup failure; no raise site in the source produces it. -/
inductive HashErr where
  | mathDomain
  | maxIdsTooLarge
  | noCalculators
  | keyError
  | typeError
  | symbolTooLong (lineNo : Nat)
  | tooManySymbols (limit : Nat)
  | unresolvableConflicts (k : Nat)
  | unknownPolynomial
  deriving DecidableEq, Repr

/-- Decidable equality of `Except` results, so that concrete runs of the
embedded pipeline can be checked by `decide`. -/
instance {e a : Type} [DecidableEq e] [DecidableEq a] : DecidableEq (Except e a) := fun x y =>
  match x, y with
  | .error u, .error v =>
    if h : u = v then isTrue (by rw [h])
    else isFalse (by intro hc; injection hc; exact h (by assumption))
  | .ok u, .ok v =>
    if h : u = v then isTrue (by rw [h])
    else isFalse (by intro hc; injection hc; exact h (by assumption))
  | .error _, .ok _ => isFalse (by intro hc; cases hc)
  | .ok _, .error _ => isFalse (by intro hc; cases hc)

/-- One catalog tuple of `crc_polynomials.py`:
`(poly_hex, name, reflect_in, xor_in, reflect_out, xor_out)`. -/
structure PolyT where
  poly : Nat
  pname : String
  reflect_in : Bool
  xor_in : Nat
  reflect_out : Bool
  xor_out : Nat
  deriving DecidableEq, Repr

/-- Catalog entry builder: every literal in `KOOPMAN_POLYNOMIALS` has the
shape `name: (poly, name, False, 0, False, 0)`. -/
def pe (n : String) (p : Nat) : String × PolyT := (n, ⟨p, n, false, 0, false, 0⟩)

/-- `KOOPMAN_POLYNOMIALS` of `src/py/crc_polynomials.py`: an insertion-ordered
dict `width ↦ (insertion-ordered dict name ↦ tuple)`, modelled as nested
association lists in the literal order of the source. -/
def KOOPMAN_POLYNOMIALS : List (Nat × List (String × PolyT)) :=
  [ (8, [pe "CRC-8F-3" 0x1cf, pe "CRC-8K-3" 0x14d, pe "SAE-J1850" 0x11d,
         pe "CCITT-8" 0x163, pe "CRC-8F-8" 0x17f, pe "CRC-8-AUTOSAR" 0x12f,
         pe "CRC-8-Bluetooth" 0x1a7, pe "WCDMA-8" 0x19b]),
    (10, [pe "CRC-10F-3" 0x64f, pe "CRC-10F-8.1" 0x5fb, pe "CRC-10F-6.1" 0x58f,
          pe "FP-10" 0x409, pe "CRC-10F-4.2" 0x48f, pe "CRC-10F-8.2" 0x5bd,
          pe "CRC-10-CDMA2000" 0x7d9, pe "FOP-11" 0x40d]),
    (12, [pe "CRC-12F-3" 0x130f, pe "CRC-12K-7" 0x1467, pe "FP-12" 0x1053,
          pe "CRC-12F-9" 0x1bbf, pe "CRC-12K-5.2" 0x17bf, pe "CRC-12F-6.1" 0x107d,
          pe "CRC-12F-4.2" 0x11e7, pe "CRC-12-CDMA2000" 0x1f13]),
    (14, [pe "CRC-14F-3" 0x4f9f, pe "CRC-14F-7" 0x5153, pe "CRC-14F-11" 0x6fdf,
          pe "FP-14" 0x402b, pe "CRC-14F-10.1" 0x7577, pe "CRC-14F-9" 0x692f,
          pe "CRC-14K-3" 0x4ed3, pe "CRC-14K-8" 0x549f]),
    (16, [pe "CRC-16F-3" 0x11b2b, pe "CRC-16F-11" 0x1fb7f, pe "FP-16" 0x1002d,
          pe "CRC-16K-3" 0x18f57, pe "CRC-16F-10.1" 0x12f3d, pe "CRC-16K-5" 0x12c4f,
          pe "CRC-16-CDMA2000" 0x1c867, pe "CRC-16-T10-DIF" 0x18bb7]),
    (18, [pe "CRC-18K-3.1" 0x472f3, pe "FP-18" 0x40027, pe "CRC-18K-3.5" 0x4717d,
          pe "CRC-18K-3.6" 0x5a13f, pe "CRC-18K-3.4" 0x43757, pe "CRC-18K-3.2" 0x57dad,
          pe "CRC-18K-3.3" 0x5dc93, pe "CRC-18K-11" 0x4d47b]),
    (20, [pe "CRC-20K-3.1" 0x16b04f, pe "CRC-20K-3.5" 0x168d6f, pe "CRC-20K-3.7" 0x189b0f,
          pe "CRC-20K-3.2" 0x15eadf, pe "CRC-20K-3.3" 0x19bdf3, pe "CRC-20K-3.6" 0x174497,
          pe "CRC-20K-3.8" 0x15f9b7, pe "CRC-20K-3.4" 0x151193]),
    (22, [pe "CRC-22K-3.1" 0x611fa7, pe "CRC-22K-3.5" 0x6dc801, pe "CRC-22K-3.7" 0x529aa9,
          pe "CRC-22K-3.10" 0x722bd3, pe "CRC-22K-3.9" 0x4e536b, pe "CRC-22K-3.2" 0x77862d,
          pe "CRC-22K-3.4" 0x7df163, pe "CRC-22K-3.3" 0x4bdefb]),
    (24, [pe "CRC-24K-3.1" 0x100001b, pe "CRC-24K-3.2" 0x11f21c7, pe "CRC-24K-3.8" 0x17b49ab,
          pe "CRC-24K-3.3" 0x127969f, pe "CRC-24K-3.7" 0x16ebd57, pe "CRC-24K-3.6" 0x12826ad,
          pe "CRC-24K-3.9" 0x14e6b4f, pe "CRC-24K-3.10" 0x170ea2b]),
    (26, [pe "CRC-26K-3.1" 0x67833df, pe "CRC-26K-3.6" 0x74cdc9f, pe "CRC-26K-3.11" 0x4fd6f67,
          pe "CRC-26K-3.7" 0x52145f5, pe "CRC-26K-3.2" 0x6c95597, pe "CRC-26K-3.5" 0x76c28cf,
          pe "CRC-26K-3.12" 0x7d32257, pe "CRC-26K-3.4" 0x529ef3d]),
    (28, [pe "CRC-28K-3.1" 0x123b83c7, pe "CRC-28K-3.5" 0x102c41cb, pe "CRC-28K-3.4" 0x17a0e8a7,
          pe "CRC-28K-3.9" 0x19ed232f, pe "CRC-28K-3.2" 0x11747ad7, pe "CRC-28K-3.8" 0x112a0cbd,
          pe "CRC-28K-3.11" 0x10d6cab9, pe "CRC-28K-3.10" 0x169d901f]),
    (30, [pe "CRC-30K-3.1" 0x6268545f, pe "CRC-30K-3.3" 0x54b7233b, pe "CRC-30K-3.11" 0x68a55347,
          pe "CRC-30K-3.8" 0x41667891, pe "CRC-30K-3.9" 0x4922d0ab, pe "CRC-30K-3.2" 0x6220e663,
          pe "CRC-30K-3.13" 0x512ff0cb, pe "CRC-30K-3.12" 0x46d305c7]) ]

/-- The keys of one width group, in order (`grp.keys()`). -/
def groupNames (grp : List (String × PolyT)) : List String := grp.map Prod.fst

/-- All catalogued polynomial names, grouped widths in order. -/
def allPolyNames : List String :=
  (KOOPMAN_POLYNOMIALS.map (fun wg => groupNames wg.2)).flatten

/-- `get_poly_index` of `src/py/crc_polynomials.py`:

    for grp in KOOPMAN_POLYNOMIALS.values():
        if poly in grp.keys():
            return list(grp.keys()).index(poly)

The body contains no `raise`; when no group contains `poly` the function
falls off the end and returns `None`, so the result is always `Except.ok`.
-/
def get_poly_index (poly : String) : Except HashErr (Option Nat) :=
  .ok (KOOPMAN_POLYNOMIALS.findSome? (fun wg =>
    if (groupNames wg.2).contains poly then some ((groupNames wg.2).indexOf poly)
    else none))

/-- Fuel-based `⌊log₂⌋`: `log2Aux fuel n` equals `Nat.log2 n` once `n ≤ fuel`
(structural recursion on the fuel keeps it kernel-computable). -/
def log2Aux : Nat → Nat → Nat
  | 0, _ => 0
  | fuel + 1, n => if n ≥ 2 then log2Aux fuel (n / 2) + 1 else 0

/-- `⌊log₂ n⌋`, the embedding of `int(math.log2(n))` for `n ≥ 1`
(`= Nat.log2 n`, proved below). -/
def log2floor (n : Nat) : Nat := log2Aux n n

/-- Fuel-based Python `int.bit_length`. -/
def bitLenAux : Nat → Nat → Nat
  | 0, _ => 0
  | fuel + 1, n => if n = 0 then 0 else bitLenAux fuel (n / 2) + 1

/-- Python `n.bit_length()`: the number of bits needed to represent `n`. -/
def bit_length (n : Nat) : Nat := bitLenAux n n

/-- Python `dict` update `d[k] = v` on an insertion-ordered association list:
an existing key keeps its position and gets the new value, a fresh key is
appended at the end (CPython dict semantics). -/
def dictInsert (k : Bytes) (v : String × Nat) : List AEntry → List AEntry
  | [] => [(k, v)]
  | (k', v') :: rest => if k' = k then (k, v) :: rest else (k', v') :: dictInsert k v rest

/-- Modelled from the spec (§4.B, step 2): one bit step of the bit-serial CRC.
Shift the input bit into the `w`-bit register MSB-first; when the bit shifted
out of the top is 1, XOR with `poly`; mask to `w` bits.  (XORing with the full
source literal and masking afterwards also cancels the implicit leading one of
the literal, as §6 requires.) -/
def crcRoundBit (w poly reg bit : Nat) : Nat :=
  let r := reg * 2 + bit
  let r := if r / 2 ^ w % 2 = 1 then r ^^^ poly else r
  r % 2 ^ w

/-- The 8 bits of a byte, MSB first. -/
def bitsOfByte (b : Nat) : List Nat :=
  [b / 128 % 2, b / 64 % 2, b / 32 % 2, b / 16 % 2, b / 8 % 2, b / 4 % 2, b / 2 % 2, b % 2]

/-- Reflect the low `n` bits of `x` (bit `0` ↔ bit `n-1`). -/
def reflectAux : Nat → Nat → Nat → Nat
  | 0, _, acc => acc
  | k + 1, x, acc => reflectAux k (x / 2) (acc * 2 + x % 2)

/-- Reflect the low `n` bits of `x`. -/
def reflectN (n x : Nat) : Nat := reflectAux n x 0

/-- Modelled from the spec (§4.B): the bit-serial CRC engine.  The source
delegates CRC evaluation to `pycrc.algorithms.Crc(...).table_driven`, an
external library that is not part of this repository; the spec defines the
engine bit-exactly by this algorithm and asserts the table-driven form agrees
with it. -/
def crcBitSerial (w : Nat) (p : PolyT) (input : Bytes) : Nat :=
  let start := p.xor_in % 2 ^ w
  let reg := input.foldl (fun reg b =>
    let b := if p.reflect_in then reflectN 8 b else b
    (bitsOfByte b).foldl (crcRoundBit w p.poly) reg) start
  let reg := if p.reflect_out then reflectN w reg else reg
  (reg ^^^ p.xor_out) % 2 ^ w

/-- The state of a `StaticHasher` after `__init__` (`src/sim/static_hash.py`).
The fields mirror the Python attributes; `crc_calculators` is the
insertion-ordered dict `name ↦ calculator` where each calculator is an opaque
function `Bytes → Nat` produced by the engine passed to `init`. -/
structure Hasher where
  max_ids : Nat
  crc_width : Nat
  id_mask : Nat
  polynomials : List (String × PolyT)
  crc_calculators : List (String × (Bytes → Nat))
  id_bytes : Nat
  hash_table_bin : List Nat

/-- `min(KOOPMAN_POLYNOMIALS.keys())`; the catalog literal is nonempty, so
Python's `min` never raises and the `getD` default is never consulted. -/
def min_available_width : Nat := ((KOOPMAN_POLYNOMIALS.map Prod.fst).min?).getD 0

/-- `StaticHasher.__init__(max_ids)`.  `engine w p` models
`pycrc.algorithms.Crc(width=w, poly=p.poly, reflect_in=p.reflect_in, ...)
.table_driven`.  Steps, in source order:

* `self.max_ids = 2**((max_ids-1).bit_length())` (round up to a power of two);
* `required_bits = int(math.log2(max_ids))` — raises for `max_ids = 0`;
* `self.crc_width = required_bits` if even else `required_bits + 1`;
* `raise` if `self.crc_width > 30`;
* raise `self.crc_width` to `min_available_width` when smaller;
* `self.id_mask = (1 << required_bits) - 1`;
* `self.polynomials = KOOPMAN_POLYNOMIALS[self.crc_width]` (dict indexing);
* build the calculator dict in catalog order;
* `raise` if no calculators were created;
* `self.id_bytes = 4`; `self.hash_table_bin = bytearray(self.id_bytes*8*self.max_ids)`.
-/
def StaticHasher.init (engine : Nat → PolyT → (Bytes → Nat)) (max_ids : Nat) :
    Except HashErr Hasher :=
  let max_ids_rounded := 2 ^ bit_length (max_ids - 1)
  if max_ids = 0 then .error .mathDomain
  else
    let required_bits := log2floor max_ids
    let crc_width0 := if required_bits % 2 = 0 then required_bits else required_bits + 1
    if crc_width0 > 30 then .error .maxIdsTooLarge
    else
      let crc_width := if crc_width0 < min_available_width then min_available_width else crc_width0
      let id_mask := 2 ^ required_bits - 1
      match KOOPMAN_POLYNOMIALS.lookup crc_width with
      | none => .error .keyError
      | some polynomials =>
        let crc_calculators := polynomials.map (fun nt => (nt.1, engine crc_width nt.2))
        if crc_calculators.isEmpty then .error .noCalculators
        else .ok { max_ids := max_ids_rounded, crc_width := crc_width, id_mask := id_mask,
                   polynomials := polynomials, crc_calculators := crc_calculators,
                   id_bytes := 4, hash_table_bin := List.replicate (4 * 8 * max_ids_rounded) 0 }

/-- `StaticHasher.calculate_crc` with the calculator already looked up:
`crc_calc.table_driven(text) & self.id_mask`. -/
def calculate_crc (crc_calc : Bytes → Nat) (id_mask : Nat) (text : Bytes) : Nat :=
  crc_calc text &&& id_mask

/-- `StaticHasher.calculate_crc(text, crc_name)` as called with a name: the
dict lookup `self.crc_calculators[crc_name]` raises `KeyError` when absent. -/
def calculate_crc_by_name (calcs : List (String × (Bytes → Nat))) (id_mask : Nat)
    (text : Bytes) (crc_name : String) : Except HashErr Nat :=
  match calcs.lookup crc_name with
  | none => .error .keyError
  | some f => .ok (calculate_crc f id_mask text)

/-- The bucket of `find_conflicts`: all strings of `strings` whose masked CRC
equals `v` (`hash_to_strings[v]`, in list order). -/
def conflictBucket (h : Bytes → Nat) (strings : List Bytes) (v : Nat) : List Bytes :=
  strings.filter (fun s => h s = v)

/-- Membership of `s` in the `conflicted_strings` set of
`assign_hash_functions`: `find_conflicts` keeps exactly the buckets with more
than one entry, and `conflicted_strings` is their union, so a string of
`strings` is conflicted iff its own bucket has at least two entries. -/
def isConflicted (h : Bytes → Nat) (strings : List Bytes) (s : Bytes) : Bool :=
  1 < (conflictBucket h strings (h s)).length

/-- The inner assignment loop of one polynomial pass:

    for string in remaining_strings:
        if string not in conflicted_strings:
            result[string] = (crc_name, next_unique_id)
            next_unique_id += 1
            newly_assigned.add(string)

`snapshot` is the `remaining_strings` list from which `conflicted_strings`
was computed (the loop iterates over that same list). -/
def assignPass (name : String) (h : Bytes → Nat) (snapshot : List Bytes) :
    List Bytes → List AEntry → Nat → List AEntry × Nat
  | [], result, nextId => (result, nextId)
  | s :: rest, result, nextId =>
    if isConflicted h snapshot s then assignPass name h snapshot rest result nextId
    else assignPass name h snapshot rest (dictInsert s (name, nextId) result) (nextId + 1)

/-- The polynomial cascade of `assign_hash_functions`: one iteration of
`for crc_name in self.crc_calculators:` per list entry, then the final
`len(remaining_strings) != 0` check.  Each pass hashes with
`self.calculate_crc(string, crc_name)`, i.e. the raw calculator masked with
`id_mask`; after the pass `remaining_strings` keeps exactly the strings not
newly assigned, i.e. the conflicted ones, and the loop breaks when no strings
remain. -/
def assignGo (id_mask : Nat) :
    List (String × (Bytes → Nat)) → List Bytes → List AEntry → Nat →
    Except HashErr (List AEntry)
  | [], remaining, result, _ =>
    if remaining.length ≠ 0 then .error (.unresolvableConflicts remaining.length)
    else .ok result
  | (name, f) :: rest, remaining, result, nextId =>
    let h := fun s => calculate_crc f id_mask s
    let (result', nextId') := assignPass name h remaining remaining result nextId
    let remaining' := remaining.filter (fun s => isConflicted h remaining s)
    if remaining'.isEmpty then .ok result'
    else assignGo id_mask rest remaining' result' nextId'

/-- `StaticHasher.assign_hash_functions(strings)`: returns the dict
`string ↦ (crc_function_name, unique_id)` or raises when strings remain
unassigned after every polynomial. -/
def assign_hash_functions (calcs : List (String × (Bytes → Nat))) (id_mask : Nat)
    (strings : List Bytes) : Except HashErr (List AEntry) :=
  assignGo id_mask calcs strings [] 0

/-- `int.from_bytes(s, 'little')`. -/
def int_from_bytes_le : Bytes → Nat
  | [] => 0
  | b :: bs => b + 256 * int_from_bytes_le bs

/-- `n.to_bytes(length, 'little')`.  Python raises `OverflowError` when
`n ≥ 256 ^ length`; at the one call site `length` bounds the value, and a
lemma below proves the truncation of this embedding never fires there. -/
def int_to_bytes_le : Nat → Nat → Bytes
  | 0, _ => []
  | len + 1, n => n % 256 :: int_to_bytes_le len (n / 256)

/-- `line_size = max(map(len, strings), default=0)` in `process_file`. -/
def line_size (strings : List Bytes) : Nat :=
  (strings.map List.length).foldr max 0

/-- Normalization of one symbol in `process_file` (ascii mode):
`int.from_bytes(s.encode("ascii"), 'little').to_bytes(line_size, 'little')`.
(The embedding starts from the encoded bytes.) -/
def normalize_symbol (L : Nat) (s : Bytes) : Bytes :=
  int_to_bytes_le L (int_from_bytes_le s)

/-- Bytearray slice assignment `ba[start:stop] = repl` for `start ≤ stop`:
CPython clamps both bounds to `len(ba)`, so an out-of-range write inserts
`repl` at the end instead of at offset `start`. -/
def setSlice (ba : List Nat) (start stop : Nat) (repl : List Nat) : List Nat :=
  ba.take (min start ba.length) ++ repl ++ ba.drop (min stop ba.length)

/-- The table-packing loop of `process_file`:

    for string, (crc_func, unique_id) in assignments.items():
        poly_idx = get_poly_index(crc_func)
        hash_val = self.calculate_crc(string, crc_func)
        addr = (poly_idx << self.crc_width) | hash_val
        content = unique_id | (1 << self.crc_width)
        self.hash_table_bin[addr*id_bytes:(addr+1)*id_bytes] = content.to_bytes(id_bytes, 'little')

with `id_bytes = 4`.  A `None` from `get_poly_index` would make
`poly_idx << self.crc_width` raise `TypeError`. -/
def writeAssignments (crc_width : Nat) (calcs : List (String × (Bytes → Nat)))
    (id_mask : Nat) : List AEntry → List Nat → Except HashErr (List Nat)
  | [], table => .ok table
  | (s, crc_func, unique_id) :: rest, table =>
    match get_poly_index crc_func with
    | .error e => .error e
    | .ok none => .error .typeError
    | .ok (some poly_idx) =>
      match calculate_crc_by_name calcs id_mask s crc_func with
      | .error e => .error e
      | .ok hash_val =>
        let addr := poly_idx <<< crc_width ||| hash_val
        let content := unique_id ||| 1 <<< crc_width
        writeAssignments crc_width calcs id_mask rest
          (setSlice table (addr * 4) ((addr + 1) * 4) (int_to_bytes_le 4 content))

/-- The readable-table loop of `process_file`: for each original string look
its normalized form up in `assignments` (a failed dict lookup would raise
`KeyError`) and record `string ↦ unique_id`. -/
def buildReadable (L : Nat) (asg : List AEntry) :
    List Bytes → Except HashErr (List (Bytes × Nat))
  | [] => .ok []
  | s :: rest =>
    match asg.lookup (normalize_symbol L s) with
    | none => .error .keyError
    | some (_, unique_id) =>
      match buildReadable L asg rest with
      | .error e => .error e
      | .ok tail => .ok ((s, unique_id) :: tail)

/-- `if len(strings) > self.max_ids: raise ...` in `process_file`. -/
def check_too_many (max_ids_field : Nat) (strings : List Bytes) : Except HashErr Unit :=
  if strings.length > max_ids_field then .error (.tooManySymbols max_ids_field)
  else .ok ()

/-- The computational core of `StaticHasher.process_file` (ascii mode), from
the `len(strings) > self.max_ids` check onwards; file reading, line
stripping, the 32-byte line check and the `except`/`sys.exit` wrapper are I/O
surface outside the modelled core (spec §1).  Returns the final
`(assignments, hash_table_bin, hash_table)`. -/
def process_file_core (hsh : Hasher) (strings : List Bytes) :
    Except HashErr (List AEntry × List Nat × List (Bytes × Nat)) :=
  match check_too_many hsh.max_ids strings with
  | .error e => .error e
  | .ok _ =>
    let L := line_size strings
    let hex_strings := strings.map (normalize_symbol L)
    match assign_hash_functions hsh.crc_calculators hsh.id_mask hex_strings with
    | .error e => .error e
    | .ok asg =>
      match writeAssignments hsh.crc_width hsh.crc_calculators hsh.id_mask asg hsh.hash_table_bin with
      | .error e => .error e
      | .ok table =>
        match buildReadable L asg strings with
        | .error e => .error e
        | .ok readable => .ok (asg, table, readable)

/-- The key (the normalized string) of an assignment entry. -/
def entryKey (e : AEntry) : Bytes := e.1

/-- The polynomial name of an assignment entry. -/
def entryName (e : AEntry) : String := e.2.1

/-- The `unique_id` of an assignment entry. -/
def entryId (e : AEntry) : Nat := e.2.2

/-- The pass number of a polynomial name: its position in the iteration order
of `self.crc_calculators` (insertion = catalog order). -/
def passRank (calcs : List (String × (Bytes → Nat))) (name : String) : Nat :=
  (calcs.map Prod.fst).indexOf name

/-- Entry `e1` precedes entry `e2` in the order the cascade issues IDs:
an earlier polynomial pass, or the same polynomial and an earlier position in
the input list. -/
def OrdRel (calcs : List (String × (Bytes → Nat))) (strings : List Bytes)
    (e1 e2 : AEntry) : Prop :=
  passRank calcs (entryName e1) < passRank calcs (entryName e2)
  ∨ (entryName e1 = entryName e2
     ∧ strings.indexOf (entryKey e1) < strings.indexOf (entryKey e2))

/-- Entries assigned to the same polynomial have distinct keys and distinct
masked CRC values under that polynomial. -/
def HashRel (calcs : List (String × (Bytes → Nat))) (id_mask : Nat)
    (e1 e2 : AEntry) : Prop :=
  entryName e1 = entryName e2 →
  entryKey e1 ≠ entryKey e2
  ∧ ∀ f, (entryName e1, f) ∈ calcs →
      calculate_crc f id_mask (entryKey e1) ≠ calculate_crc f id_mask (entryKey e2)

/-- The block of entries one pass appends to `result`: the given strings in
order, tagged with the pass's polynomial name and consecutive IDs from `n`. -/
def tag (name : String) : Nat → List Bytes → List AEntry
  | _, [] => []
  | n, s :: rest => (s, name, n) :: tag name (n + 1) rest

/-- The `remaining_strings` list left after running the cascade's filter
chain: mirrors the pass structure of `assignGo` (including the early break)
without building the result. -/
def remainingAfter (id_mask : Nat) :
    List (String × (Bytes → Nat)) → List Bytes → List Bytes
  | [], remaining => remaining
  | (_, f) :: rest, remaining =>
    let h := fun s => calculate_crc f id_mask s
    let remaining' := remaining.filter (fun s => isConflicted h remaining s)
    if remaining'.isEmpty then [] else remainingAfter id_mask rest remaining'

/-- Input of the concrete run refuting the packed-table round trip: the ASCII
symbols `"AD"` and `"BB"`, which collide under `CRC-8F-3` masked to 3 bits
but not under `CRC-8K-3`. -/
def c2input : List Bytes := [[65, 68], [66, 66]]

/-- Six ASCII symbols (`"AD" "AC" "AA" "BC" "AB" "BD"`) whose build with
`max_ids = 5` succeeds: `"AD"` and `"AC"` are alone in their `CRC-8F-3`
buckets, the other four collide pairwise there and separate under
`CRC-8K-3`. -/
def c4input : List Bytes := [[65, 68], [65, 67], [65, 65], [66, 67], [65, 66], [66, 68]]

/-- Nine one-byte symbols: more than `2 ^ ⌈log₂ 5⌉ = 8`. -/
def c4over : List Bytes := [[65], [66], [67], [68], [69], [70], [71], [72], [73]]

/-- A one-polynomial calculator family for concrete cascade runs: the hash of
a byte string is its first byte. -/
def headCalc : List (String × (Bytes → Nat)) := [("p", fun s => s.headD 0)]

/-- A one-polynomial calculator family whose hash is constantly `0`. -/
def zeroCalc : List (String × (Bytes → Nat)) := [("p", fun _ => 0)]

/-! ## General list lemmas -/

theorem two_le_length_of_mem_ne {α : Type} [DecidableEq α] {a b : α} {l : List α}
    (hab : a ≠ b) (ha : a ∈ l) (hb : b ∈ l) : 2 ≤ l.length := by
  have hb' : b ∈ l.erase a := (List.mem_erase_of_ne (Ne.symm hab)).mpr hb
  have h1 : 1 ≤ (l.erase a).length := List.length_pos.mpr (List.ne_nil_of_mem hb')
  have h2 : (l.erase a).length = l.length - 1 := List.length_erase_of_mem ha
  have h3 : 1 ≤ l.length := List.length_pos.mpr (List.ne_nil_of_mem ha)
  omega

theorem length_filter_partition {α : Type} (p : α → Bool) (l : List α) :
    (l.filter p).length + (l.filter (fun a => !(p a))).length = l.length := by
  induction l with
  | nil => rfl
  | cons a t ih => cases hpa : p a <;> simp [List.filter_cons, hpa] <;> omega

theorem indexOf_append_self {α : Type} [DecidableEq α] {name : α} {pre : List α}
    (post : List α) (h : name ∉ pre) :
    (pre ++ name :: post).indexOf name = pre.length := by
  induction pre with
  | nil => simp [List.indexOf_cons_self]
  | cons a t ih =>
    have hna : a ≠ name := by rintro rfl; exact h (List.mem_cons_self _ _)
    have hnt : name ∉ t := fun hm => h (List.mem_cons_of_mem _ hm)
    simp [List.indexOf_cons_ne _ hna, ih hnt]

theorem indexOf_cons_self_beq {α : Type} [BEq α] [LawfulBEq α] (a : α) (l : List α) :
    (a :: l).indexOf a = 0 := by
  rw [List.indexOf, List.findIdx_cons]
  simp

theorem indexOf_cons_ne_beq {α : Type} [BEq α] [LawfulBEq α] {a b : α} (l : List α)
    (h : b ≠ a) : (b :: l).indexOf a = l.indexOf a + 1 := by
  rw [List.indexOf, List.findIdx_cons]
  have hb : (b == a) = false := by simp [h]
  rw [hb]
  rfl

theorem sublist_pairwise_indexOf {α : Type} [BEq α] [LawfulBEq α] :
    ∀ {A strings : List α}, A.Sublist strings → (∀ a ∈ A, strings.count a = 1) →
      List.Pairwise (fun a b => strings.indexOf a < strings.indexOf b) A := by
  intro A strings hsub
  induction hsub with
  | slnil => intro _; exact List.Pairwise.nil
  | @cons l₁ l₂ a hs ih =>
    intro hcnt
    have hne : ∀ b ∈ l₁, b ≠ a := by
      intro b hb hba
      subst hba
      have hbmem : b ∈ l₂ := hs.subset hb
      have h1 : l₂.count b + 1 ≤ 1 := by
        have := hcnt b hb
        rw [List.count_cons_self] at this
        omega
      have := List.count_pos_iff.mpr hbmem
      omega
    have hcnt' : ∀ b ∈ l₁, l₂.count b = 1 := by
      intro b hb
      have := hcnt b hb
      rwa [List.count_cons_of_ne (hne b hb)] at this
    refine (ih hcnt').imp_of_mem ?_
    intro b c hb hc hbc
    rw [indexOf_cons_ne_beq _ (Ne.symm (hne b hb)), indexOf_cons_ne_beq _ (Ne.symm (hne c hc))]
    omega
  | @cons₂ l₁ l₂ a hs ih =>
    intro hcnt
    have hat : l₂.count a = 0 := by
      have := hcnt a (List.mem_cons_self _ _)
      rw [List.count_cons_self] at this
      omega
    have hne : ∀ b ∈ l₁, b ≠ a := by
      intro b hb hba
      subst hba
      have : b ∈ l₂ := hs.subset hb
      have := List.count_pos_iff.mpr this
      omega
    have hcnt' : ∀ b ∈ l₁, l₂.count b = 1 := by
      intro b hb
      have := hcnt b (List.mem_cons_of_mem _ hb)
      rwa [List.count_cons_of_ne (hne b hb)] at this
    constructor
    · intro b hb
      rw [indexOf_cons_self_beq, indexOf_cons_ne_beq _ (Ne.symm (hne b hb))]
      omega
    · refine (ih hcnt').imp_of_mem ?_
      intro b c hb hc hbc
      rw [indexOf_cons_ne_beq _ (Ne.symm (hne b hb)), indexOf_cons_ne_beq _ (Ne.symm (hne c hc))]
      omega

/-! ## Normalization (`process_file`, ascii branch) -/

theorem int_to_bytes_le_zero : ∀ L, int_to_bytes_le L 0 = List.replicate L 0 := by
  intro L
  induction L with
  | zero => rfl
  | succ n ih => simp [int_to_bytes_le, List.replicate, ih]

theorem normalize_pad : ∀ (s : Bytes) (L : Nat), (∀ b ∈ s, b < 256) → s.length ≤ L →
    int_to_bytes_le L (int_from_bytes_le s) = s ++ List.replicate (L - s.length) 0 := by
  intro s
  induction s with
  | nil => intro L _ _; simpa using int_to_bytes_le_zero L
  | cons b bs ih =>
    intro L hb hL
    match L, hL with
    | L + 1, hL =>
      have hb256 : b < 256 := hb b (List.mem_cons_self _ _)
      have hmod : (b + 256 * int_from_bytes_le bs) % 256 = b := by
        rw [Nat.add_mul_mod_self_left, Nat.mod_eq_of_lt hb256]
      have hdiv : (b + 256 * int_from_bytes_le bs) / 256 = int_from_bytes_le bs := by
        rw [Nat.add_mul_div_left _ _ (by omega : 0 < 256), Nat.div_eq_of_lt hb256]
        omega
      have hL' : bs.length ≤ L := by simpa using hL
      simp only [int_from_bytes_le, int_to_bytes_le, hmod, hdiv,
        ih L (fun x hx => hb x (List.mem_cons_of_mem _ hx)) hL']
      simp [List.length_cons, Nat.succ_sub_succ]

theorem length_le_line_size {s : Bytes} {strings : List Bytes} (hs : s ∈ strings) :
    s.length ≤ line_size strings := by
  induction strings with
  | nil => cases hs
  | cons a t ih =>
    have : line_size (a :: t) = max a.length (line_size t) := rfl
    rcases List.mem_cons.mp hs with h | h
    · subst h; rw [this]; exact Nat.le_max_left _ _
    · rw [this]; exact le_trans (ih h) (Nat.le_max_right _ _)

/-- Claim C9: normalization maps each raw symbol to exactly `L` bytes, where
`L = line_size strings` is the maximum raw symbol length of the input, with
the raw bytes occupying the low (first) positions and zero bytes filling the
high end.  (The concrete instance `{"A", "AA"} ↦ {[0x41, 0x00], [0x41, 0x41]}`
is the witness below.) -/
theorem C9_normalization (strings : List Bytes)
    (hb : ∀ s ∈ strings, ∀ b ∈ s, b < 256) :
    ∀ s ∈ strings,
      normalize_symbol (line_size strings) s = s ++ List.replicate (line_size strings - s.length) 0
      ∧ (normalize_symbol (line_size strings) s).length = line_size strings := by
  intro s hs
  have hpad := normalize_pad s (line_size strings) (hb s hs) (length_le_line_size hs)
  refine ⟨hpad, ?_⟩
  rw [normalize_symbol, hpad]
  have := length_le_line_size hs
  simp [List.length_append, List.length_replicate]
  omega

/-- Witness for C9 at the spec's concrete inputs `"A"` and `"AA"`
(0x41 = 65): lengths 2, values `[0x41, 0x00]` and `[0x41, 0x41]`. -/
theorem C9_normalization_witness :
    normalize_symbol (line_size [[65], [65, 65]]) [65] = [65, 0]
    ∧ normalize_symbol (line_size [[65], [65, 65]]) [65, 65] = [65, 65] := by
  have h1 := C9_normalization [[65], [65, 65]] (by decide) [65] (by decide)
  have h2 := C9_normalization [[65], [65, 65]] (by decide) [65, 65] (by decide)
  exact ⟨by rw [h1.1]; rfl, by rw [h2.1]; rfl⟩

/-! ## Constructor (`StaticHasher.__init__`) -/

theorem log2Aux_eq : ∀ (fuel n : Nat), n ≤ fuel → log2Aux fuel n = Nat.log2 n := by
  intro fuel
  induction fuel with
  | zero =>
    intro n hn
    have h0 : n = 0 := by omega
    subst h0
    rw [log2Aux, Nat.log2]
    simp
  | succ fuel ih =>
    intro n hn
    rw [log2Aux]
    by_cases h2 : n ≥ 2
    · rw [if_pos h2, ih (n / 2) (by omega)]
      conv_rhs => rw [Nat.log2]
      rw [if_pos h2]
    · rw [if_neg h2]
      conv_rhs => rw [Nat.log2]
      rw [if_neg h2]

theorem log2floor_eq (n : Nat) : log2floor n = Nat.log2 n :=
  log2Aux_eq n n (le_refl n)

theorem bitLenAux_zero : ∀ fuel, bitLenAux fuel 0 = 0 := by
  intro fuel
  cases fuel with
  | zero => rfl
  | succ f => rw [bitLenAux, if_pos rfl]

theorem bitLenAux_eq : ∀ (fuel n : Nat), 1 ≤ n → n ≤ fuel → bitLenAux fuel n = Nat.log2 n + 1 := by
  intro fuel
  induction fuel with
  | zero => intro n h1 h2; omega
  | succ fuel ih =>
    intro n h1 h2
    rw [bitLenAux, if_neg (by omega : ¬ n = 0)]
    by_cases hge : n ≥ 2
    · rw [ih (n / 2) (by omega) (by omega)]
      conv_rhs => rw [Nat.log2]
      rw [if_pos hge]
    · have hn1 : n = 1 := by omega
      subst hn1
      rw [bitLenAux_zero]
      conv_rhs => rw [Nat.log2]
      rw [if_neg hge]

/-- `bit_length n = ⌊log₂ n⌋ + 1` for `n ≥ 1`, as in Python. -/
theorem bit_length_eq {n : Nat} (h : 1 ≤ n) : bit_length n = Nat.log2 n + 1 :=
  bitLenAux_eq n n h (le_refl n)

theorem min_available_width_eq : min_available_width = 8 := by decide

theorem lookup_width_isSome : ∀ w, w ≤ 30 → w % 2 = 0 → 8 ≤ w →
    (KOOPMAN_POLYNOMIALS.lookup w).isSome = true
    ∧ ((KOOPMAN_POLYNOMIALS.lookup w).getD []).isEmpty = false := by decide

theorem ite_min_width_eq_max (a : Nat) :
    (if a < min_available_width then min_available_width else a) = max a 8 := by
  rw [min_available_width_eq]
  rcases Nat.lt_or_ge a 8 with h | h
  · rw [if_pos h, Nat.max_eq_right h.le]
  · rw [if_neg (Nat.not_lt.mpr h), Nat.max_eq_left h]

theorem max_even_width {a : Nat} (h : a % 2 = 0) : max a 8 % 2 = 0 := by
  rcases Nat.le_total a 8 with hle | hle
  · rw [Nat.max_eq_right hle]
  · rw [Nat.max_eq_left hle]; exact h

theorem init_eq_error_zero (engine : Nat → PolyT → (Bytes → Nat)) :
    StaticHasher.init engine 0 = .error .mathDomain := by
  simp only [StaticHasher.init]
  simp

theorem init_error_of_large (engine : Nat → PolyT → (Bytes → Nat)) (max_ids : Nat)
    (hpos : 1 ≤ max_ids)
    (h30 : (if log2floor max_ids % 2 = 0 then log2floor max_ids else log2floor max_ids + 1) > 30) :
    StaticHasher.init engine max_ids = .error .maxIdsTooLarge := by
  simp only [StaticHasher.init]
  rw [if_neg (by omega : ¬ max_ids = 0), if_pos h30]

theorem init_eq_ok (engine : Nat → PolyT → (Bytes → Nat)) (max_ids : Nat)
    (hpos : 1 ≤ max_ids)
    (h30 : (if log2floor max_ids % 2 = 0 then log2floor max_ids else log2floor max_ids + 1) ≤ 30) :
    StaticHasher.init engine max_ids = .ok {
      max_ids := 2 ^ bit_length (max_ids - 1),
      crc_width :=
        max (if log2floor max_ids % 2 = 0 then log2floor max_ids else log2floor max_ids + 1) 8,
      id_mask := 2 ^ log2floor max_ids - 1,
      polynomials := (KOOPMAN_POLYNOMIALS.lookup
        (max (if log2floor max_ids % 2 = 0 then log2floor max_ids else log2floor max_ids + 1) 8)).getD [],
      crc_calculators := ((KOOPMAN_POLYNOMIALS.lookup
        (max (if log2floor max_ids % 2 = 0 then log2floor max_ids else log2floor max_ids + 1) 8)).getD []).map
          (fun nt => (nt.1, engine
            (max (if log2floor max_ids % 2 = 0 then log2floor max_ids else log2floor max_ids + 1) 8) nt.2)),
      id_bytes := 4,
      hash_table_bin := List.replicate (4 * 8 * 2 ^ bit_length (max_ids - 1)) 0 } := by
  have hev : (if log2floor max_ids % 2 = 0 then log2floor max_ids else log2floor max_ids + 1) % 2
      = 0 := by split <;> omega
  have hmax30 :
      max (if log2floor max_ids % 2 = 0 then log2floor max_ids else log2floor max_ids + 1) 8 ≤ 30 :=
    Nat.max_le.mpr ⟨h30, by omega⟩
  obtain ⟨hsome, hne⟩ := lookup_width_isSome _ hmax30 (max_even_width hev) (Nat.le_max_right _ _)
  obtain ⟨ps, hps⟩ := Option.isSome_iff_exists.mp hsome
  have hne' : ps.isEmpty = false := by rw [hps] at hne; simpa using hne
  have hmapne : (ps.map (fun nt => (nt.1, engine
      (max (if log2floor max_ids % 2 = 0 then log2floor max_ids else log2floor max_ids + 1) 8)
      nt.2))).isEmpty = false := by
    cases ps with
    | nil => simp at hne'
    | cons a t => rfl
  simp only [StaticHasher.init, ite_min_width_eq_max]
  rw [if_neg (by omega : ¬ max_ids = 0), if_neg (by omega : ¬ _ > 30), hps]
  dsimp only
  rw [if_neg (by simp [hmapne])]
  rfl

theorem init_ok_iff (engine : Nat → PolyT → (Bytes → Nat)) (max_ids : Nat) (hsh : Hasher)
    (hok : StaticHasher.init engine max_ids = .ok hsh) :
    1 ≤ max_ids
    ∧ (if log2floor max_ids % 2 = 0 then log2floor max_ids else log2floor max_ids + 1) ≤ 30
    ∧ hsh.max_ids = 2 ^ bit_length (max_ids - 1)
    ∧ hsh.crc_width
        = max (if log2floor max_ids % 2 = 0 then log2floor max_ids else log2floor max_ids + 1) 8
    ∧ hsh.id_mask = 2 ^ log2floor max_ids - 1
    ∧ hsh.hash_table_bin = List.replicate (4 * 8 * 2 ^ bit_length (max_ids - 1)) 0 := by
  have hpos : 1 ≤ max_ids := by
    by_contra h
    have h0 : max_ids = 0 := by omega
    rw [h0, init_eq_error_zero] at hok
    cases hok
  have h30 : (if log2floor max_ids % 2 = 0 then log2floor max_ids else log2floor max_ids + 1)
      ≤ 30 := by
    by_contra h
    rw [init_error_of_large engine max_ids hpos (by omega)] at hok
    cases hok
  rw [init_eq_ok engine max_ids hpos h30] at hok
  injection hok with h
  subst h
  exact ⟨hpos, h30, rfl, rfl, rfl, rfl⟩

/-- Claim C7: `required_bits = ⌊log₂ max_ids⌋`; `crc_width` equals
`required_bits` if even, else `required_bits + 1`, then raised to a minimum of
8; construction fails with `MaxIdsTooLarge` exactly when the selected
`crc_width` would exceed 30 (in particular `max_ids = 2 ^ 31` fails); and
`id_mask = 2 ^ required_bits - 1`. -/
theorem C7_crc_width_selection (engine : Nat → PolyT → (Bytes → Nat)) (max_ids : Nat)
    (hpos : 1 ≤ max_ids) :
    (max (if Nat.log2 max_ids % 2 = 0 then Nat.log2 max_ids else Nat.log2 max_ids + 1) 8 > 30
      ↔ StaticHasher.init engine max_ids = .error .maxIdsTooLarge)
    ∧ (max (if Nat.log2 max_ids % 2 = 0 then Nat.log2 max_ids else Nat.log2 max_ids + 1) 8 ≤ 30 →
        ∃ hsh, StaticHasher.init engine max_ids = .ok hsh
          ∧ hsh.crc_width
              = max (if Nat.log2 max_ids % 2 = 0 then Nat.log2 max_ids else Nat.log2 max_ids + 1) 8
          ∧ hsh.id_mask = 2 ^ Nat.log2 max_ids - 1)
    ∧ StaticHasher.init engine (2 ^ 31) = .error .maxIdsTooLarge := by
  simp only [← log2floor_eq]
  refine ⟨⟨fun hgt => ?_, fun herr => ?_⟩, fun hle => ?_, ?_⟩
  · exact init_error_of_large engine max_ids hpos (by omega)
  · by_contra hgt
    rw [init_eq_ok engine max_ids hpos (by omega)] at herr
    cases herr
  · refine ⟨_, init_eq_ok engine max_ids hpos (by omega), rfl, rfl⟩
  · have hpos' : 1 ≤ 2 ^ 31 := by
      have := Nat.two_pow_pos 31
      omega
    have hlog : log2floor (2 ^ 31) = 31 := by decide
    exact init_error_of_large engine (2 ^ 31) hpos' (by rw [hlog]; decide)

/-- Witness for C7: at `max_ids = 8` the selected width is 8 (3 bits rounded
to 4, raised to the catalog minimum 8) and `id_mask = 7`; `max_ids = 2 ^ 31`
fails with `MaxIdsTooLarge`. -/
theorem C7_crc_width_selection_witness :
    (StaticHasher.init crcBitSerial 8).map (fun hsh => (hsh.crc_width, hsh.id_mask)) = .ok (8, 7)
    ∧ StaticHasher.init crcBitSerial (2 ^ 31) = .error .maxIdsTooLarge := by
  have hlog : Nat.log2 8 = 3 := by rw [← log2floor_eq]; decide
  obtain ⟨h1, h2, h3⟩ := C7_crc_width_selection crcBitSerial 8 (by omega)
  obtain ⟨hsh, hok, hw, hm⟩ := h2 (by rw [hlog]; decide)
  refine ⟨?_, h3⟩
  rw [hok]
  simp only [Except.map]
  rw [hw, hm, hlog]
  rfl

/-- Claim C10: for every successfully constructed hasher and every calculator
of its width, `calculate_crc` returns the raw CRC ANDed with `id_mask`, hence
a value in `[0, 2 ^ required_bits)` with `required_bits = ⌊log₂ max_ids⌋ ≤
crc_width` — so even when `required_bits < crc_width` only the low
`2 ^ required_bits` slots of each polynomial's table block are ever
addressed. -/
theorem C10_calculate_crc_masked (engine : Nat → PolyT → (Bytes → Nat)) (max_ids : Nat)
    (hsh : Hasher) (hok : StaticHasher.init engine max_ids = .ok hsh) :
    ∀ nf ∈ hsh.crc_calculators, ∀ text : Bytes,
      calculate_crc nf.2 hsh.id_mask text = nf.2 text &&& hsh.id_mask
      ∧ calculate_crc nf.2 hsh.id_mask text < 2 ^ Nat.log2 max_ids
      ∧ Nat.log2 max_ids ≤ hsh.crc_width := by
  simp only [← log2floor_eq]
  obtain ⟨h1, h30, hmax, hw, hmask, _⟩ := init_ok_iff engine max_ids hsh hok
  intro nf _ text
  refine ⟨rfl, ?_, ?_⟩
  · rw [calculate_crc, hmask]
    have hle : nf.2 text &&& (2 ^ log2floor max_ids - 1) ≤ 2 ^ log2floor max_ids - 1 :=
      Nat.and_le_right
    have hpow : 0 < 2 ^ log2floor max_ids := Nat.two_pow_pos _
    omega
  · rw [hw]
    have hle : log2floor max_ids
        ≤ (if log2floor max_ids % 2 = 0 then log2floor max_ids else log2floor max_ids + 1) := by
      split <;> omega
    exact le_trans hle (Nat.le_max_left _ _)

/-- Witness for C10: for the `max_ids = 8` hasher (`id_mask = 7` though
`crc_width = 8`), every one of the eight calculators hashes the symbol `"AD"`
into `[0, 2 ^ 3)`. -/
theorem C10_calculate_crc_masked_witness :
    (StaticHasher.init crcBitSerial 8).map (fun hsh =>
      hsh.crc_calculators.all (fun nf =>
        decide (calculate_crc nf.2 hsh.id_mask [65, 68] < 2 ^ 3))) = .ok true := by
  cases hinit : StaticHasher.init crcBitSerial 8 with
  | error e =>
    have hok : (StaticHasher.init crcBitSerial 8).isOk = true := by
      rw [init_eq_ok crcBitSerial 8 (by omega) (by decide)]
      rfl
    rw [hinit] at hok
    simp [Except.isOk, Except.toBool] at hok
  | ok hsh =>
    simp only [Except.map]
    have hall := C10_calculate_crc_masked crcBitSerial 8 hsh hinit
    have hlog : Nat.log2 8 = 3 := by rw [← log2floor_eq]; decide
    congr 1
    rw [List.all_eq_true]
    intro nf hnf
    have := (hall nf hnf [65, 68]).2.1
    rw [hlog] at this
    exact decide_eq_true this

/-! ## Cascade failure (`assign_hash_functions`) -/

theorem assignGo_error_iff (id_mask : Nat) :
    ∀ (calcs : List (String × (Bytes → Nat))) (remaining : List Bytes)
      (result : List AEntry) (nextId : Nat) (e : HashErr),
      assignGo id_mask calcs remaining result nextId = .error e
      ↔ (remainingAfter id_mask calcs remaining ≠ []
          ∧ e = .unresolvableConflicts (remainingAfter id_mask calcs remaining).length) := by
  intro calcs
  induction calcs with
  | nil =>
    intro remaining result nextId e
    simp only [assignGo, remainingAfter]
    by_cases hr : remaining.length ≠ 0
    · rw [if_pos hr]
      constructor
      · intro h
        injection h with h
        constructor
        · intro hcon
          rw [hcon] at hr
          simp at hr
        · rw [← h]
      · rintro ⟨_, rfl⟩
        rfl
    · rw [if_neg hr]
      constructor
      · intro h; cases h
      · rintro ⟨hne, _⟩
        exact absurd (List.length_eq_zero.mp (by omega)) hne
  | cons nf rest ih =>
    obtain ⟨name, f⟩ := nf
    intro remaining result nextId e
    simp only [assignGo, remainingAfter]
    rcases hpr : assignPass name (fun s => calculate_crc f id_mask s) remaining remaining
        result nextId with ⟨result1, nextId1⟩
    by_cases hemp : (remaining.filter
        (fun s => isConflicted (fun s => calculate_crc f id_mask s) remaining s)).isEmpty
    · rw [if_pos hemp, if_pos hemp]
      constructor
      · intro h; cases h
      · rintro ⟨hne, _⟩; exact absurd rfl hne
    · rw [if_neg hemp, if_neg hemp]
      exact ih _ _ _ _

theorem exists_two_le_count_of_not_nodup {α : Type} [BEq α] [LawfulBEq α] :
    ∀ {l : List α}, ¬ l.Nodup → ∃ a, 2 ≤ l.count a := by
  intro l
  induction l with
  | nil => intro h; exact absurd List.nodup_nil h
  | cons x t ih =>
    intro h
    by_cases hx : x ∈ t
    · refine ⟨x, ?_⟩
      have := List.count_pos_iff.mpr hx
      rw [List.count_cons_self]
      omega
    · have hnt : ¬ t.Nodup := by
        intro hnd
        exact h (List.nodup_cons.mpr ⟨hx, hnd⟩)
      obtain ⟨a, ha⟩ := ih hnt
      refine ⟨a, ?_⟩
      have : t.count a ≤ (x :: t).count a := by
        rw [List.count_cons]
        omega
      omega

theorem isConflicted_true_iff (h : Bytes → Nat) (l : List Bytes) (s : Bytes) :
    isConflicted h l s = true ↔ 1 < (conflictBucket h l (h s)).length := by
  simp [isConflicted]

theorem count_le_bucket (h : Bytes → Nat) (l : List Bytes) (s : Bytes) :
    l.count s ≤ (conflictBucket h l (h s)).length := by
  rw [conflictBucket]
  calc l.count s = (l.filter (fun t => h t = h s)).count s :=
        (List.count_filter (by simp)).symm
    _ ≤ _ := List.count_le_length _ _

theorem remainingAfter_keeps_dup (id_mask : Nat) :
    ∀ (calcs : List (String × (Bytes → Nat))) (remaining : List Bytes) (a : Bytes),
      2 ≤ remaining.count a →
      2 ≤ (remainingAfter id_mask calcs remaining).count a := by
  intro calcs
  induction calcs with
  | nil => intro remaining a h; exact h
  | cons nf rest ih =>
    obtain ⟨name, f⟩ := nf
    intro remaining a h2
    simp only [remainingAfter]
    have hconf : isConflicted (fun s => calculate_crc f id_mask s) remaining a = true := by
      rw [isConflicted_true_iff]
      have := count_le_bucket (fun s => calculate_crc f id_mask s) remaining a
      omega
    have hcnt : (remaining.filter
        (fun s => isConflicted (fun s => calculate_crc f id_mask s) remaining s)).count a
        = remaining.count a := List.count_filter hconf
    have hmem : a ∈ remaining.filter
        (fun s => isConflicted (fun s => calculate_crc f id_mask s) remaining s) :=
      List.count_pos_iff.mp (by omega)
    rw [if_neg (by simp only [List.isEmpty_iff]; exact List.ne_nil_of_mem hmem)]
    exact ih _ a (by omega)

/-- Claim C8: any input containing two equal normalized symbols fails with
`UnresolvableConflicts` (never silently deduplicates), and more generally
`assign_hash_functions` fails exactly when symbols remain after all
polynomial passes, with `UnresolvableConflicts k` for `k` the number of
remaining symbols. -/
theorem C8_duplicates_unresolvable (calcs : List (String × (Bytes → Nat))) (id_mask : Nat)
    (strings : List Bytes) :
    (¬ strings.Nodup →
      ∃ k, assign_hash_functions calcs id_mask strings = .error (.unresolvableConflicts k)
        ∧ 2 ≤ k ∧ k = (remainingAfter id_mask calcs strings).length)
    ∧ ∀ e : HashErr, assign_hash_functions calcs id_mask strings = .error e →
        remainingAfter id_mask calcs strings ≠ []
        ∧ e = .unresolvableConflicts (remainingAfter id_mask calcs strings).length := by
  constructor
  · intro hdup
    obtain ⟨a, ha⟩ := exists_two_le_count_of_not_nodup hdup
    have h2 := remainingAfter_keeps_dup id_mask calcs strings a ha
    have hlen : 2 ≤ (remainingAfter id_mask calcs strings).length :=
      le_trans h2 (List.count_le_length _ _)
    refine ⟨(remainingAfter id_mask calcs strings).length, ?_, hlen, rfl⟩
    rw [assign_hash_functions]
    refine (assignGo_error_iff id_mask calcs strings [] 0 _).mpr ⟨?_, rfl⟩
    intro hc
    rw [hc] at hlen
    simp at hlen
  · intro e he
    exact (assignGo_error_iff id_mask calcs strings [] 0 e).mp he

/-- Witness for C8: the duplicated input `["A", "A"]` under a one-polynomial
family fails with `UnresolvableConflicts 2`. -/
theorem C8_duplicates_unresolvable_witness :
    assign_hash_functions zeroCalc 0 [[65], [65]] = .error (.unresolvableConflicts 2) := by
  obtain ⟨k, hk, h2, hlen⟩ := (C8_duplicates_unresolvable zeroCalc 0 [[65], [65]]).1 (by decide)
  have hk2 : k = 2 := by rw [hlen]; rfl
  rw [← hk2]
  exact hk

theorem writeAssignments_error_shape (crc_width : Nat) (calcs : List (String × (Bytes → Nat)))
    (id_mask : Nat) : ∀ (asg : List AEntry) (table : List Nat) (e : HashErr),
    writeAssignments crc_width calcs id_mask asg table = .error e →
    e = .typeError ∨ e = .keyError := by
  intro asg
  induction asg with
  | nil => intro table e h; cases h
  | cons entry rest ih =>
    obtain ⟨s, crc_func, uid⟩ := entry
    intro table e h
    simp only [writeAssignments, get_poly_index] at h
    cases hfs : KOOPMAN_POLYNOMIALS.findSome? (fun wg =>
        if (groupNames wg.2).contains crc_func then some ((groupNames wg.2).indexOf crc_func)
        else none) with
    | none =>
      rw [hfs] at h
      dsimp only at h
      injection h with h
      exact Or.inl h.symm
    | some idx =>
      rw [hfs] at h
      dsimp only at h
      simp only [calculate_crc_by_name] at h
      cases hlk : calcs.lookup crc_func with
      | none =>
        rw [hlk] at h
        dsimp only at h
        injection h with h
        exact Or.inr h.symm
      | some f =>
        rw [hlk] at h
        dsimp only at h
        exact ih _ _ h

theorem buildReadable_error_shape (L : Nat) (asg : List AEntry) :
    ∀ (strings : List Bytes) (e : HashErr),
    buildReadable L asg strings = .error e → e = .keyError := by
  intro strings
  induction strings with
  | nil => intro e h; cases h
  | cons s rest ih =>
    intro e h
    simp only [buildReadable] at h
    cases hlk : asg.lookup (normalize_symbol L s) with
    | none =>
      rw [hlk] at h
      dsimp only at h
      injection h with h
      exact h.symm
    | some p =>
      obtain ⟨pn, pu⟩ := p
      rw [hlk] at h
      dsimp only at h
      cases hbr : buildReadable L asg rest with
      | error e' =>
        rw [hbr] at h
        dsimp only at h
        injection h with h
        rw [← h]
        exact ih e' hbr
      | ok tail =>
        rw [hbr] at h
        dsimp only at h
        cases h

/-! ## The `TooManySymbols` check (`process_file`) -/

/-- Counterexample to claim C4: with constructor argument `max_ids = 5` an
input of six symbols (6 > 5) does not fail at all — the whole build succeeds
— because the check compares against the rounded field `2 ^ ⌈log₂ 5⌉ = 8`,
not the constructor argument. -/
theorem C4_too_many_counterexample :
    ((StaticHasher.init crcBitSerial 5).bind (fun hsh => process_file_core hsh c4input)).isOk
      = true
    ∧ c4input.length = 6 ∧ 6 > 5 := by
  refine ⟨?_, rfl, by omega⟩
  rw [init_eq_ok crcBitSerial 5 (by omega) (by decide)]
  rfl

/-- Claim C4 (amended): the build fails with `TooManySymbols` exactly when
the number of input symbols exceeds the hasher's rounded capacity field
`self.max_ids = 2 ^ bit_length(max_ids - 1)` — the constructor argument
rounded up to a power of two — not the constructor argument itself. -/
theorem C4_too_many_amended (engine : Nat → PolyT → (Bytes → Nat)) (max_ids : Nat)
    (hsh : Hasher) (strings : List Bytes)
    (hok : StaticHasher.init engine max_ids = .ok hsh) :
    hsh.max_ids = 2 ^ bit_length (max_ids - 1)
    ∧ (process_file_core hsh strings = .error (.tooManySymbols hsh.max_ids)
        ↔ strings.length > hsh.max_ids) := by
  obtain ⟨_, _, hmax, _⟩ := init_ok_iff engine max_ids hsh hok
  refine ⟨hmax, ?_, ?_⟩
  · intro herr
    by_contra hgt
    have hchk : check_too_many hsh.max_ids strings = .ok () := by
      rw [check_too_many, if_neg (by omega)]
    rw [process_file_core, hchk] at herr
    dsimp only at herr
    cases hasg : assign_hash_functions hsh.crc_calculators hsh.id_mask
        (strings.map (normalize_symbol (line_size strings))) with
    | error e' =>
      rw [hasg] at herr
      dsimp only at herr
      injection herr with he
      obtain ⟨_, hshape⟩ := (assignGo_error_iff hsh.id_mask hsh.crc_calculators _ [] 0 e').mp hasg
      rw [hshape] at he
      cases he
    | ok asg =>
      rw [hasg] at herr
      dsimp only at herr
      cases hwr : writeAssignments hsh.crc_width hsh.crc_calculators hsh.id_mask asg
          hsh.hash_table_bin with
      | error e' =>
        rw [hwr] at herr
        dsimp only at herr
        injection herr with he
        rcases writeAssignments_error_shape hsh.crc_width hsh.crc_calculators hsh.id_mask
            asg hsh.hash_table_bin e' hwr with h | h <;> (rw [h] at he; cases he)
      | ok table =>
        rw [hwr] at herr
        dsimp only at herr
        cases hrd : buildReadable (line_size strings) asg strings with
        | error e' =>
          rw [hrd] at herr
          dsimp only at herr
          injection herr with he
          have := buildReadable_error_shape (line_size strings) asg strings e' hrd
          rw [this] at he
          cases he
        | ok readable =>
          rw [hrd] at herr
          dsimp only at herr
          cases herr
  · intro hgt
    rw [process_file_core, check_too_many, if_pos hgt]

/-- Witness for the amended C4: nine symbols with `max_ids = 5` (rounded
capacity 8) fail with `TooManySymbols 8`. -/
theorem C4_too_many_amended_witness :
    (StaticHasher.init crcBitSerial 5).bind (fun hsh => process_file_core hsh c4over)
      = .error (.tooManySymbols 8) := by
  have hinit := init_eq_ok crcBitSerial 5 (by omega) (by decide)
  obtain ⟨hmax, hiff⟩ := C4_too_many_amended crcBitSerial 5 _ c4over hinit
  have h8 : (2 : Nat) ^ bit_length (5 - 1) = 8 := by decide
  have h9 : c4over.length = 9 := rfl
  have hgt := hiff.mpr (by rw [hmax, h8, h9]; omega)
  rw [hmax, h8] at hgt
  rw [hinit]
  exact hgt

/-! ## Polynomial index lookup (`get_poly_index`) -/

/-- Counterexample to claim C5: for a name not present in the catalog,
`get_poly_index` does not fail with `UnknownPolynomial` (nor any other
error); it falls off the end of its loop and returns Python `None`
(`Except.ok none`), in violation of its own `-> int` annotation. -/
theorem C5_poly_index_counterexample :
    get_poly_index "ZZZ-NOPE" = .ok none
    ∧ get_poly_index "ZZZ-NOPE" ≠ .error .unknownPolynomial := by
  refine ⟨by decide, by decide⟩

/-- Claim C5 (amended): for every catalogued polynomial name,
`get_poly_index` returns `some` of that polynomial's position within its
width's ordered list, an integer in `[0, 8)`; for every name not in the
catalog it returns Python `None` (`Except.ok none`) without raising — in
particular it does not fail with the spec's `UnknownPolynomial` error. -/
theorem C5_poly_index_amended :
    (∀ gi, gi < KOOPMAN_POLYNOMIALS.length →
      ∀ i, i < (KOOPMAN_POLYNOMIALS.getD gi (0, [])).2.length →
        get_poly_index ((groupNames (KOOPMAN_POLYNOMIALS.getD gi (0, [])).2).getD i "")
          = .ok (some i)
        ∧ i < 8)
    ∧ ∀ name, name ∉ allPolyNames → get_poly_index name = .ok none := by
  constructor
  · decide
  · intro name hname
    rw [get_poly_index]
    have hnone : KOOPMAN_POLYNOMIALS.findSome? (fun wg =>
        if (groupNames wg.2).contains name then some ((groupNames wg.2).indexOf name)
        else none) = none := by
      rw [List.findSome?_eq_none_iff]
      intro wg hwg
      rw [if_neg ?_]
      intro hcont
      apply hname
      rw [allPolyNames, List.mem_flatten]
      refine ⟨groupNames wg.2, List.mem_map.mpr ⟨wg, hwg, rfl⟩, ?_⟩
      simpa using hcont
    rw [hnone]

/-- Witness for the amended C5: the catalogued name `"CRC-8K-3"` (width 8,
position 1) yields `some 1`, and the unknown name `"ZZZ-NOPE"` yields
`none`. -/
theorem C5_poly_index_amended_witness :
    get_poly_index "CRC-8K-3" = .ok (some 1) ∧ get_poly_index "ZZZ-NOPE" = .ok none := by
  have h := C5_poly_index_amended
  exact ⟨(h.1 0 (by decide) 1 (by decide)).1, h.2 "ZZZ-NOPE" (by decide)⟩

/-! ## Assignment-order machinery (`assign_hash_functions` successful runs) -/

theorem dictInsert_fresh {k : Bytes} (v : String × Nat) :
    ∀ {l : List AEntry}, k ∉ l.map entryKey → dictInsert k v l = l ++ [(k, v)] := by
  intro l
  induction l with
  | nil => intro _; rfl
  | cons e t ih =>
    intro hk
    obtain ⟨ek, ev⟩ := e
    have h1 : ek ≠ k := by
      intro hc
      apply hk
      rw [List.map_cons, hc]
      exact List.mem_cons_self _ _
    rw [dictInsert, if_neg h1, ih (fun hm => hk (by rw [List.map_cons]; exact List.mem_cons_of_mem _ hm))]
    rfl

theorem tag_map_id (name : String) : ∀ (l : List Bytes) (n : Nat),
    (tag name n l).map entryId = List.range' n l.length := by
  intro l
  induction l with
  | nil => intro n; rfl
  | cons s rest ih =>
    intro n
    rw [tag, List.map_cons, ih (n + 1)]
    rfl

theorem tag_mem_shape (name : String) : ∀ (l : List Bytes) (n : Nat) (e : AEntry),
    e ∈ tag name n l → ∃ b m, e = (b, name, m) ∧ b ∈ l := by
  intro l
  induction l with
  | nil => intro n e he; cases he
  | cons s rest ih =>
    intro n e he
    rw [tag] at he
    rcases List.mem_cons.mp he with rfl | he'
    · exact ⟨s, n, rfl, List.mem_cons_self _ _⟩
    · obtain ⟨b, m, rfl, hb⟩ := ih (n + 1) e he'
      exact ⟨b, m, rfl, List.mem_cons_of_mem _ hb⟩

theorem tag_pairwise {S : Bytes → Bytes → Prop} {R : AEntry → AEntry → Prop} (name : String)
    (hR : ∀ a b n m, S a b → R (a, name, n) (b, name, m)) :
    ∀ (l : List Bytes) (n : Nat), l.Pairwise S → (tag name n l).Pairwise R := by
  intro l
  induction l with
  | nil => intro n _; exact List.Pairwise.nil
  | cons s rest ih =>
    intro n hp
    rw [tag]
    rcases hp with _ | ⟨hs, hrest⟩
    constructor
    · intro e he
      obtain ⟨b, m, rfl, hb⟩ := tag_mem_shape name rest (n + 1) e he
      exact hR s b n m (hs b hb)
    · exact ih (n + 1) hrest

theorem assignPass_eq (name : String) (h : Bytes → Nat) (snapshot : List Bytes) :
    ∀ (iter : List Bytes) (result : List AEntry) (nextId : Nat),
      (∀ a ∈ iter.filter (fun s => !(isConflicted h snapshot s)), a ∉ result.map entryKey) →
      (iter.filter (fun s => !(isConflicted h snapshot s))).Nodup →
      assignPass name h snapshot iter result nextId
        = (result ++ tag name nextId (iter.filter (fun s => !(isConflicted h snapshot s))),
           nextId + (iter.filter (fun s => !(isConflicted h snapshot s))).length) := by
  intro iter
  induction iter with
  | nil =>
    intro result nextId _ _
    simp [assignPass, tag]
  | cons s rest ih =>
    intro result nextId hfresh hnd
    rw [assignPass]
    by_cases hc : isConflicted h snapshot s
    · have hfilter : (s :: rest).filter (fun s => !(isConflicted h snapshot s))
          = rest.filter (fun s => !(isConflicted h snapshot s)) := by
        rw [List.filter_cons]
        simp [hc]
      rw [hfilter] at hfresh hnd
      rw [if_pos hc, hfilter]
      exact ih result nextId hfresh hnd
    · have hcb : isConflicted h snapshot s = false := by
        cases hcv : isConflicted h snapshot s
        · rfl
        · exact absurd hcv hc
      have hfilter : (s :: rest).filter (fun s => !(isConflicted h snapshot s))
          = s :: rest.filter (fun s => !(isConflicted h snapshot s)) := by
        rw [List.filter_cons]
        simp [hcb]
      rw [hfilter] at hfresh hnd
      rw [if_neg hc]
      have hsfresh : s ∉ result.map entryKey := hfresh s (List.mem_cons_self _ _)
      rw [dictInsert_fresh (name, nextId) hsfresh]
      have hndrest : (rest.filter (fun s => !(isConflicted h snapshot s))).Nodup :=
        (List.nodup_cons.mp hnd).2
      have hsnot : s ∉ rest.filter (fun s => !(isConflicted h snapshot s)) :=
        (List.nodup_cons.mp hnd).1
      have hfresh' : ∀ a ∈ rest.filter (fun s => !(isConflicted h snapshot s)),
          a ∉ (result ++ [(s, name, nextId)]).map entryKey := by
        intro a ha
        rw [List.map_append]
        intro hmem
        rcases List.mem_append.mp hmem with hm | hm
        · exact hfresh a (List.mem_cons_of_mem _ ha) hm
        · have : a = s := by simpa [entryKey] using hm
          exact hsnot (this ▸ ha)
      rw [ih (result ++ [(s, name, nextId)]) (nextId + 1) hfresh' hndrest, hfilter]
      rw [tag, List.append_assoc]
      refine congrArg _ ?_
      rw [List.length_cons]
      omega

theorem nonconflicted_count_one {h : Bytes → Nat} {l : List Bytes} {s : Bytes}
    (hs : s ∈ l) (hc : isConflicted h l s = false) : l.count s = 1 := by
  have h1 : 0 < l.count s := List.count_pos_iff.mpr hs
  have h2 := count_le_bucket h l s
  have h3 : ¬ (1 < (conflictBucket h l (h s)).length) := by
    intro hgt
    rw [(isConflicted_true_iff h l s).mpr hgt] at hc
    cases hc
  omega

theorem nodup_of_count_le_one {α : Type} [BEq α] [LawfulBEq α] :
    ∀ {l : List α}, (∀ a, l.count a ≤ 1) → l.Nodup := by
  intro l
  induction l with
  | nil => intro _; exact List.nodup_nil
  | cons x t ih =>
    intro h
    rw [List.nodup_cons]
    constructor
    · intro hx
      have h1 := List.count_pos_iff.mpr hx
      have hc := h x
      rw [List.count_cons_self] at hc
      omega
    · refine ih (fun a => ?_)
      have := h a
      rw [List.count_cons] at this
      omega

theorem nonconf_filter_nodup (h : Bytes → Nat) (snapshot : List Bytes) :
    (snapshot.filter (fun s => !(isConflicted h snapshot s))).Nodup := by
  apply nodup_of_count_le_one
  intro a
  by_cases ha : a ∈ snapshot.filter (fun s => !(isConflicted h snapshot s))
  · have hmem : a ∈ snapshot := (List.mem_filter.mp ha).1
    have hcf := (List.mem_filter.mp ha).2
    have h1 : snapshot.count a = 1 :=
      nonconflicted_count_one hmem (by simpa using hcf)
    have h2 := (List.filter_sublist (p := fun s => !(isConflicted h snapshot s)) snapshot).count_le a
    omega
  · rw [List.count_eq_zero.mpr ha]
    omega

theorem hash_ne_of_nonconflicted {h : Bytes → Nat} {l : List Bytes} {s1 s2 : Bytes}
    (h1 : s1 ∈ l) (h2 : s2 ∈ l) (hne : s1 ≠ s2)
    (hc1 : isConflicted h l s1 = false) : h s1 ≠ h s2 := by
  intro hh
  have m1 : s1 ∈ conflictBucket h l (h s1) := by
    rw [conflictBucket, List.mem_filter]
    exact ⟨h1, by simp⟩
  have m2 : s2 ∈ conflictBucket h l (h s1) := by
    rw [conflictBucket, List.mem_filter]
    exact ⟨h2, by simp [hh]⟩
  have hlen := two_le_length_of_mem_ne hne m1 m2
  rw [(isConflicted_true_iff h l s1).mpr (by omega)] at hc1
  cases hc1

theorem indexOf_append_self_beq {α : Type} [BEq α] [LawfulBEq α] {name : α} {pre : List α}
    (post : List α) (h : name ∉ pre) :
    (pre ++ name :: post).indexOf name = pre.length := by
  induction pre with
  | nil => simpa using indexOf_cons_self_beq name post
  | cons a t ih =>
    have hna : a ≠ name := by rintro rfl; exact h (List.mem_cons_self _ _)
    have hnt : name ∉ t := fun hm => h (List.mem_cons_of_mem _ hm)
    rw [List.cons_append, indexOf_cons_ne_beq _ hna, ih hnt, List.length_cons]

theorem passRank_append {done : List (String × (Bytes → Nat))} {name : String}
    {f : Bytes → Nat} {rest : List (String × (Bytes → Nat))}
    (hnd : ((done ++ (name, f) :: rest).map Prod.fst).Nodup) :
    passRank (done ++ (name, f) :: rest) name = done.length := by
  rw [passRank, List.map_append, List.map_cons]
  rw [List.map_append, List.map_cons] at hnd
  have hnm : name ∉ done.map Prod.fst := by
    intro hmem
    have hdisj := (List.nodup_append.mp hnd).2.2
    exact hdisj hmem (List.mem_cons_self _ _)
  rw [indexOf_append_self_beq _ hnm, List.length_map]

theorem assoc_unique : ∀ {calcs : List (String × (Bytes → Nat))} {name : String}
    {f g : Bytes → Nat}, (calcs.map Prod.fst).Nodup →
    (name, f) ∈ calcs → (name, g) ∈ calcs → f = g := by
  intro calcs
  induction calcs with
  | nil => intro name f g _ hf; cases hf
  | cons c rest ih =>
    intro name f g hnd hf hg
    rw [List.map_cons, List.nodup_cons] at hnd
    rcases List.mem_cons.mp hf with rfl | hf'
    · rcases List.mem_cons.mp hg with hgc | hg'
      · injection hgc with h1 h2
        exact h2.symm
      · exact absurd (List.mem_map.mpr ⟨(name, g), hg', rfl⟩) hnd.1
    · rcases List.mem_cons.mp hg with rfl | hg'
      · exact absurd (List.mem_map.mpr ⟨(name, f), hf', rfl⟩) hnd.1
      · exact ih hnd.2 hf' hg'

theorem range_append_range' (n k : Nat) :
    List.range n ++ List.range' n k = List.range (n + k) := by
  rw [List.range_eq_range', List.range_eq_range']
  have := List.range'_append_1 0 n k
  simpa [Nat.add_comm] using this

theorem OrdRel_asymm {calcs : List (String × (Bytes → Nat))} {strings : List Bytes}
    {e1 e2 : AEntry} (h12 : OrdRel calcs strings e1 e2) (h21 : OrdRel calcs strings e2 e1) :
    False := by
  rcases h12 with h | ⟨hn, hi⟩ <;> rcases h21 with h' | ⟨hn', hi'⟩
  · omega
  · rw [hn'] at h; omega
  · rw [hn] at h'; omega
  · omega

theorem OrdRel_irrefl {calcs : List (String × (Bytes → Nat))} {strings : List Bytes}
    {e : AEntry} (h : OrdRel calcs strings e e) : False := by
  rcases h with h | ⟨_, hi⟩ <;> omega

theorem assignGo_ok_master (id_mask : Nat) (full : List (String × (Bytes → Nat)))
    (strings : List Bytes) (hnd : (full.map Prod.fst).Nodup) :
    ∀ (suffix done : List (String × (Bytes → Nat))) (remaining : List Bytes)
      (result : List AEntry) (nextId : Nat) (final : List AEntry),
      full = done ++ suffix →
      (∀ s ∈ remaining, remaining.count s = strings.count s) →
      remaining.Sublist strings →
      (∀ e ∈ result, entryKey e ∉ remaining) →
      result.map entryId = List.range nextId →
      nextId + remaining.length = strings.length →
      (∀ e ∈ result, passRank full (entryName e) < done.length) →
      List.Pairwise (OrdRel full strings) result →
      List.Pairwise (HashRel full id_mask) result →
      assignGo id_mask suffix remaining result nextId = .ok final →
      final.map entryId = List.range strings.length
      ∧ List.Pairwise (OrdRel full strings) final
      ∧ List.Pairwise (HashRel full id_mask) final := by
  intro suffix
  induction suffix with
  | nil =>
    intro done remaining result nextId final hfull hcnt hsub hfresh hids htot hrank hord hhash hok
    simp only [assignGo] at hok
    by_cases hr : remaining.length ≠ 0
    · rw [if_pos hr] at hok
      cases hok
    · rw [if_neg hr] at hok
      injection hok with hok
      subst hok
      refine ⟨?_, hord, hhash⟩
      rw [hids]
      have hn : nextId = strings.length := by omega
      rw [hn]
  | cons nf rest ih =>
    obtain ⟨name, f⟩ := nf
    intro done remaining result nextId final hfull hcnt hsub hfresh hids htot hrank hord hhash hok
    simp only [assignGo] at hok
    have hAfresh : ∀ a ∈ remaining.filter
        (fun s => !(isConflicted (fun s => calculate_crc f id_mask s) remaining s)),
        a ∉ result.map entryKey := by
      intro a ha hmem
      obtain ⟨e, he, hkey⟩ := List.mem_map.mp hmem
      exact hfresh e he (by rw [hkey]; exact (List.mem_filter.mp ha).1)
    have hAnodup := nonconf_filter_nodup (fun s => calculate_crc f id_mask s) remaining
    rw [assignPass_eq name (fun s => calculate_crc f id_mask s) remaining remaining result nextId
      hAfresh hAnodup] at hok
    dsimp only at hok
    have hkcount : ∀ a ∈ remaining.filter
        (fun s => !(isConflicted (fun s => calculate_crc f id_mask s) remaining s)),
        strings.count a = 1 := by
      intro a ha
      have h1 := (List.mem_filter.mp ha).1
      have h3 : isConflicted (fun s => calculate_crc f id_mask s) remaining a = false := by
        simpa using (List.mem_filter.mp ha).2
      rw [← hcnt a h1]
      exact nonconflicted_count_one h1 h3
    have hApair := sublist_pairwise_indexOf ((List.filter_sublist _).trans hsub) hkcount
    have hmemf : (name, f) ∈ full := by
      rw [hfull]
      exact List.mem_append.mpr (Or.inr (List.mem_cons_self _ _))
    have hnd' : ((done ++ (name, f) :: rest).map Prod.fst).Nodup := by
      rw [← hfull]
      exact hnd
    have hrankname : passRank full name = done.length := by
      rw [hfull]
      exact passRank_append hnd'
    have hTname : ∀ e ∈ tag name nextId (remaining.filter
        (fun s => !(isConflicted (fun s => calculate_crc f id_mask s) remaining s))),
        entryName e = name := by
      intro e he
      obtain ⟨b, m, rfl, _⟩ := tag_mem_shape name _ nextId e he
      rfl
    have hordT : List.Pairwise (OrdRel full strings) (tag name nextId (remaining.filter
        (fun s => !(isConflicted (fun s => calculate_crc f id_mask s) remaining s)))) := by
      refine tag_pairwise name ?_ _ _ hApair
      intro a b n m hS
      exact Or.inr ⟨rfl, hS⟩
    have hSpair : List.Pairwise (fun a b => a ≠ b ∧
        calculate_crc f id_mask a ≠ calculate_crc f id_mask b) (remaining.filter
        (fun s => !(isConflicted (fun s => calculate_crc f id_mask s) remaining s))) := by
      refine hAnodup.imp_of_mem ?_
      intro a b ha hb hne
      have ha' := List.mem_filter.mp ha
      have hconf : isConflicted (fun s => calculate_crc f id_mask s) remaining a = false := by
        simpa using ha'.2
      exact ⟨hne, hash_ne_of_nonconflicted ha'.1 (List.mem_filter.mp hb).1 hne hconf⟩
    have hhashT : List.Pairwise (HashRel full id_mask) (tag name nextId (remaining.filter
        (fun s => !(isConflicted (fun s => calculate_crc f id_mask s) remaining s)))) := by
      refine tag_pairwise name ?_ _ _ hSpair
      intro a b n m hS _
      refine ⟨hS.1, ?_⟩
      intro g hg
      have hgf : g = f := assoc_unique hnd hg hmemf
      rw [hgf]
      exact hS.2
    have hordcross : ∀ e ∈ result, ∀ e' ∈ tag name nextId (remaining.filter
        (fun s => !(isConflicted (fun s => calculate_crc f id_mask s) remaining s))),
        OrdRel full strings e e' := by
      intro e he e' he'
      left
      rw [hTname e' he', hrankname]
      exact hrank e he
    have hhashcross : ∀ e ∈ result, ∀ e' ∈ tag name nextId (remaining.filter
        (fun s => !(isConflicted (fun s => calculate_crc f id_mask s) remaining s))),
        HashRel full id_mask e e' := by
      intro e he e' he' heq
      exfalso
      have h1 := hrank e he
      rw [heq, hTname e' he', hrankname] at h1
      omega
    have hordR : List.Pairwise (OrdRel full strings) (result ++ tag name nextId
        (remaining.filter
          (fun s => !(isConflicted (fun s => calculate_crc f id_mask s) remaining s)))) :=
      List.pairwise_append.mpr ⟨hord, hordT, hordcross⟩
    have hhashR : List.Pairwise (HashRel full id_mask) (result ++ tag name nextId
        (remaining.filter
          (fun s => !(isConflicted (fun s => calculate_crc f id_mask s) remaining s)))) :=
      List.pairwise_append.mpr ⟨hhash, hhashT, hhashcross⟩
    have hidsR : (result ++ tag name nextId (remaining.filter
        (fun s => !(isConflicted (fun s => calculate_crc f id_mask s) remaining s)))).map entryId
        = List.range (nextId + (remaining.filter
          (fun s => !(isConflicted (fun s => calculate_crc f id_mask s) remaining s))).length) := by
      rw [List.map_append, hids, tag_map_id, range_append_range']
    have hpart : (remaining.filter
          (fun s => isConflicted (fun s => calculate_crc f id_mask s) remaining s)).length
        + (remaining.filter
          (fun s => !(isConflicted (fun s => calculate_crc f id_mask s) remaining s))).length
        = remaining.length := length_filter_partition _ remaining
    by_cases hemp : (remaining.filter
        (fun s => isConflicted (fun s => calculate_crc f id_mask s) remaining s)).isEmpty = true
    · rw [if_pos hemp] at hok
      injection hok with hok
      subst hok
      have hRTnil : remaining.filter
          (fun s => isConflicted (fun s => calculate_crc f id_mask s) remaining s) = [] := by
        simpa [List.isEmpty_iff] using hemp
      rw [hRTnil] at hpart
      refine ⟨?_, hordR, hhashR⟩
      rw [hidsR]
      congr 1
      rw [List.length_nil] at hpart
      omega
    · rw [if_neg hemp] at hok
      refine ih (done ++ [(name, f)])
        (remaining.filter (fun s => isConflicted (fun s => calculate_crc f id_mask s) remaining s))
        (result ++ tag name nextId (remaining.filter
          (fun s => !(isConflicted (fun s => calculate_crc f id_mask s) remaining s))))
        (nextId + (remaining.filter
          (fun s => !(isConflicted (fun s => calculate_crc f id_mask s) remaining s))).length)
        final ?_ ?_ ?_ ?_ hidsR ?_ ?_ hordR hhashR hok
      · rw [hfull, List.append_assoc]
        rfl
      · intro s hs
        have hsc := List.mem_filter.mp hs
        rw [List.count_filter hsc.2]
        exact hcnt s hsc.1
      · exact (List.filter_sublist _).trans hsub
      · intro e he
        rcases List.mem_append.mp he with hm | hm
        · intro hmem
          exact hfresh e hm (List.mem_filter.mp hmem).1
        · intro hmem
          obtain ⟨b, m, rfl, hb⟩ := tag_mem_shape name _ nextId e hm
          have h1 := (List.mem_filter.mp hb).2
          have h2 := (List.mem_filter.mp hmem).2
          rw [Bool.not_eq_eq_eq_not] at h1
          simp only [entryKey] at h2
          rw [h2] at h1
          cases h1
      · omega
      · intro e he
        rcases List.mem_append.mp he with hm | hm
        · have := hrank e hm
          rw [List.length_append, List.length_singleton]
          omega
        · rw [hTname e hm, hrankname, List.length_append, List.length_singleton]
          omega

/-- Claim C3: on a successful build of `N` input symbols the `unique_id`s of
the assignment, in assignment order, are exactly `0, …, N-1` (so they form
exactly the set `{0, …, N-1}`), and they are issued in
`(polynomial priority, original input position)` order: an entry assigned
during an earlier polynomial pass, or during the same pass at an earlier
input position, has the strictly smaller `unique_id`. -/
theorem C3_dense_ordered_ids (calcs : List (String × (Bytes → Nat))) (id_mask : Nat)
    (strings : List Bytes) (final : List AEntry)
    (hnd : (calcs.map Prod.fst).Nodup)
    (hok : assign_hash_functions calcs id_mask strings = .ok final) :
    final.map entryId = List.range strings.length
    ∧ ∀ e1 ∈ final, ∀ e2 ∈ final,
        (passRank calcs (entryName e1) < passRank calcs (entryName e2)
          ∨ (entryName e1 = entryName e2
             ∧ strings.indexOf (entryKey e1) < strings.indexOf (entryKey e2))) →
        entryId e1 < entryId e2 := by
  obtain ⟨hids, hord, _⟩ := assignGo_ok_master id_mask calcs strings hnd calcs [] strings [] 0
    final rfl (fun s _ => rfl) (List.Sublist.refl _) (by intro e he; cases he) rfl
    (by simp) (by intro e he; cases he) List.Pairwise.nil List.Pairwise.nil hok
  refine ⟨hids, ?_⟩
  intro e1 h1 e2 h2 hlex
  have hidget : ∀ (t : Fin final.length), entryId (final.get t) = t.val := by
    intro t
    have hgq := congrArg (fun l => l.get? t.val) hids
    simp only [List.get?_eq_getElem?, List.getElem?_map] at hgq
    have htN : t.val < strings.length := by
      have hl := congrArg List.length hids
      simp only [List.length_map, List.length_range] at hl
      omega
    rw [List.getElem?_range htN, List.getElem?_eq_getElem t.isLt] at hgq
    have hge : final[t.val] = final.get t := rfl
    rw [hge] at hgq
    simpa using hgq
  obtain ⟨i, hi⟩ := List.mem_iff_get.mp h1
  obtain ⟨j, hj⟩ := List.mem_iff_get.mp h2
  have hide1 : entryId e1 = i.val := by rw [← hi]; exact hidget i
  have hide2 : entryId e2 = j.val := by rw [← hj]; exact hidget j
  rcases Nat.lt_trichotomy i.val j.val with hlt | heq | hgt
  · omega
  · exfalso
    have he : e1 = e2 := by
      rw [← hi, ← hj]
      congr 1
      exact Fin.ext heq
    rw [he] at hlex
    exact OrdRel_irrefl (show OrdRel calcs strings e2 e2 from hlex)
  · exfalso
    have hrel := List.pairwise_iff_get.mp hord j i hgt
    rw [hi, hj] at hrel
    exact OrdRel_asymm (show OrdRel calcs strings e1 e2 from hlex) hrel

/-- Witness for C3: the two-symbol run under a one-polynomial family assigns
ids `[0, 1] = range 2`, and the entry at the earlier input position gets the
smaller id. -/
theorem C3_dense_ordered_ids_witness :
    ([([0], ("p", 0)), ([1], ("p", 1))] : List AEntry).map entryId = List.range 2
    ∧ entryId (([0], ("p", 0)) : AEntry) < entryId (([1], ("p", 1)) : AEntry) := by
  have h := C3_dense_ordered_ids headCalc 1 [[0], [1]]
    [([0], ("p", 0)), ([1], ("p", 1))] (by decide) rfl
  exact ⟨h.1, h.2 _ (by decide) _ (by decide) (Or.inr ⟨rfl, by decide⟩)⟩

/-- Claim C6: after every successful build, two distinct symbols assigned to
the same polynomial have distinct masked CRC values under that polynomial —
and hence distinct raw CRC values: the assignment is a perfect hash per
polynomial. -/
theorem C6_perfect_hash_per_polynomial (calcs : List (String × (Bytes → Nat))) (id_mask : Nat)
    (strings : List Bytes) (final : List AEntry)
    (hnd : (calcs.map Prod.fst).Nodup)
    (hok : assign_hash_functions calcs id_mask strings = .ok final) :
    ∀ name f, (name, f) ∈ calcs →
      ∀ s1 id1 s2 id2, (s1, name, id1) ∈ final → (s2, name, id2) ∈ final → s1 ≠ s2 →
        calculate_crc f id_mask s1 ≠ calculate_crc f id_mask s2 ∧ f s1 ≠ f s2 := by
  obtain ⟨_, _, hhash⟩ := assignGo_ok_master id_mask calcs strings hnd calcs [] strings [] 0
    final rfl (fun s _ => rfl) (List.Sublist.refl _) (by intro e he; cases he) rfl
    (by simp) (by intro e he; cases he) List.Pairwise.nil List.Pairwise.nil hok
  intro name f hf s1 id1 s2 id2 h1 h2 hne
  obtain ⟨i, hi⟩ := List.mem_iff_get.mp h1
  obtain ⟨j, hj⟩ := List.mem_iff_get.mp h2
  have key : calculate_crc f id_mask s1 ≠ calculate_crc f id_mask s2 := by
    rcases Nat.lt_trichotomy i.val j.val with hlt | heq | hgt
    · have hrel := List.pairwise_iff_get.mp hhash i j hlt
      rw [hi, hj] at hrel
      exact (hrel rfl).2 f hf
    · exfalso
      have he : ((s1, name, id1) : AEntry) = (s2, name, id2) := by
        rw [← hi, ← hj]
        congr 1
        exact Fin.ext heq
      exact hne (congrArg entryKey he)
    · have hrel := List.pairwise_iff_get.mp hhash j i hgt
      rw [hi, hj] at hrel
      exact fun hc => (hrel rfl).2 f hf hc.symm
  exact ⟨key, fun hraw => key (by rw [calculate_crc, calculate_crc, hraw])⟩

/-- Witness for C6: in the concrete run of the one-polynomial family both
symbols are assigned to `"p"` and their masked hashes (and raw hashes)
differ. -/
theorem C6_perfect_hash_per_polynomial_witness :
    calculate_crc (fun s : Bytes => s.headD 0) 1 [0]
      ≠ calculate_crc (fun s : Bytes => s.headD 0) 1 [1]
    ∧ (fun s : Bytes => s.headD 0) [0] ≠ (fun s : Bytes => s.headD 0) [1] :=
  C6_perfect_hash_per_polynomial headCalc 1 [[0], [1]]
    [([0], ("p", 0)), ([1], ("p", 1))] (by decide) rfl "p" (fun s => s.headD 0)
    (by unfold headCalc; exact List.mem_cons_self _ _) [0] 0 [1] 1
    (by decide) (by decide) (by decide)

/-! ## Packed-table size and round trip (`__init__` / `process_file`) -/

set_option maxRecDepth 8000 in
/-- Claim C1 (code bug): the packed table should hold `entry_bytes × 8 ×
2 ^ crc_width = 4 · 8 · 256 = 8192` bytes for a `max_ids = 8` build — the
layout the writer's own address computation `(poly_idx << crc_width) | hash`
and the hardware consumer assume — but `__init__` allocates
`id_bytes * 8 * self.max_ids` bytes with `self.max_ids` the rounded
constructor argument: for `max_ids = 8` it allocates `4 · 8 · 8 = 256` bytes
although `crc_width = 8`. -/
theorem C1_table_size_bug :
    (StaticHasher.init crcBitSerial 8).map
        (fun hsh => (hsh.crc_width, hsh.hash_table_bin.length)) = .ok (8, 256)
    ∧ (256 : Nat) ≠ 4 * 8 * 2 ^ 8 := by
  constructor
  · rw [init_eq_ok crcBitSerial 8 (by omega) (by decide)]
    rfl
  · omega

set_option maxRecDepth 8000 in
/-- Claim C2 (code bug): the packed-table round trip fails.  In the
`max_ids = 8` build of the symbols `"AD"` and `"BB"` (which collide under
`CRC-8F-3` masked to 3 bits) both are assigned to `CRC-8K-3` (catalog index
1), so their slots lie at byte offsets `4 · ((1 <<< 8) ||| hash) ≥ 1024`,
beyond the 256-byte buffer `__init__` allocated; CPython slice assignment
clamps the out-of-range bounds and appends both payloads at the end (final
table length 264), and reading 4 bytes at the claimed offset `4 · 263` of
the slot of `"AD"` yields nothing instead of the little-endian
`0 ||| (1 <<< 8)`. -/
theorem C2_roundtrip_bug :
    ((StaticHasher.init crcBitSerial 8).bind (fun hsh => process_file_core hsh c2input)).map
        (fun r => (r.1, ((r.2.1.drop (4 * ((1 <<< 8) ||| 7))).take 4, r.2.1.length)))
      = .ok ([([65, 68], "CRC-8K-3", 0), ([66, 66], "CRC-8K-3", 1)], ([], 264))
    ∧ ([] : List Nat) ≠ int_to_bytes_le 4 (0 ||| (1 <<< 8)) := by
  constructor
  · rw [init_eq_ok crcBitSerial 8 (by omega) (by decide)]
    rfl
  · decide
